import Mathlib

/-!
Verification of the dulien-orchestration decision-and-execution core.

The definitions below are a shallow embedding of the Python sources:
  * `src/python/orchestrator.py`  (DulienOrchestrator)
  * `src/python/claude_agent.py`  (ClaudeAgent)
  * `src/python/config.py`        (ORCHESTRATOR_CONFIG, TASK_FILTERS)

Dictionaries become structures, the per-cycle dedup set
`self.current_run_actions` becomes an explicit `List ActionKey` threaded
through the functions, and exceptions become `Except`.
-/

namespace Dulien

/-- ActionKey, the dedup identity `(action["type"], action["repo"], action["number"])`
built in `_can_process_action` (orchestrator.py line 316). -/
abbrev ActionKey := String × String × Nat

/-- A GitHub item (PR, task or epic) as the orchestrator sees it after
`github_client.py` enriched it with `repo` and `has_processing_label`. -/
structure Item where
  repo : String
  number : Nat
  title : String
  body : String
  hasProcessingLabel : Bool
deriving DecidableEq

/-- The state dictionary assembled by `_scan_github_state`
(orchestrator.py lines 129-145); the timestamp field is omitted because no
decision code reads it. -/
structure Snapshot where
  prs : List Item
  openTasks : List Item
  processingTasks : List Item
  epicsWithoutTasks : List Item
deriving DecidableEq

/-- An action dictionary as produced by `_simple_decision_logic` or
`_enrich_action`.  Review and monitor actions carry no body in the Python
dicts; we represent the absent key as `""`. -/
structure Action where
  type : String
  repo : String
  number : Nat
  title : String
  body : String
  priority : Nat
deriving DecidableEq

/-- An action dictionary proposed by the Mistral oracle, before enrichment.
Each field is `Option` because the oracle's JSON may omit keys; reading a
missing key raises (KeyError), which the embedding surfaces as
`Except.error`. -/
structure RawAction where
  type : Option String
  repo : Option String
  number : Option Nat
  priority : Nat
deriving DecidableEq

/-- Configured values, `ORCHESTRATOR_CONFIG` of config.py lines 166-172. -/
def maxParallelActions : Nat := 3

/-- `ORCHESTRATOR_CONFIG["action_timeout"]`. -/
def actionTimeout : Nat := 600

/-- `ORCHESTRATOR_CONFIG["retry_attempts"]`. -/
def retryAttemptsConfig : Nat := 2

/-- `ORCHESTRATOR_CONFIG["retry_delay"]`. -/
def retryDelayConfig : Nat := 30

/-- `TASK_FILTERS["ignore_old_tasks_before_number"]` (config.py line 229). -/
def ignoreOldTasksBeforeNumber : Nat := 50

/-- `_can_process_action` (orchestrator.py lines 313-323): returns whether the
key is new and the updated dedup set.  The Python method mutates
`self.current_run_actions`; here the set is explicit. -/
def canProcessAction (key : ActionKey) (tracker : List ActionKey) :
    Bool × List ActionKey :=
  if key ∈ tracker then (false, tracker) else (true, key :: tracker)

/-- Tier-1 action construction (orchestrator.py lines 236-242). -/
def mkReview (pr : Item) : Action :=
  ⟨"review_pr", pr.repo, pr.number, pr.title, "", 1⟩

/-- Tier-2 action construction (orchestrator.py lines 250-257). -/
def mkImplement (t : Item) : Action :=
  ⟨"implement_task", t.repo, t.number, t.title, t.body, 2⟩

/-- Tier-3 action construction (orchestrator.py lines 265-272). -/
def mkDecompose (e : Item) : Action :=
  ⟨"decompose_epic", e.repo, e.number, e.title, e.body, 3⟩

/-- The dedup key of a finished action dict. -/
def actionKey (a : Action) : ActionKey := (a.type, a.repo, a.number)

/-- One tier loop of `_simple_decision_logic`: iterate over the (already
sliced) item list, dedup-check each candidate, append admitted ones, and
return early (flag `true`) once `len(actions) >= max_actions` (the
`if len(actions) >= max_actions: return actions` checks at orchestrator.py
lines 244, 259, 274). -/
def scanTier (mk : Item → Action) (maxActions : Nat) :
    List Item → List Action → List ActionKey →
    List Action × List ActionKey × Bool
  | [], acc, tracker => (acc, tracker, false)
  | item :: rest, acc, tracker =>
    let r := canProcessAction (actionKey (mk item)) tracker
    if r.1 then
      if maxActions ≤ (acc ++ [mk item]).length then (acc ++ [mk item], r.2, true)
      else scanTier mk maxActions rest (acc ++ [mk item]) r.2
    else scanTier mk maxActions rest acc r.2

/-- `_simple_decision_logic` (orchestrator.py lines 227-278).  Tier 1 scans
`state["prs"]["items"][:max_actions]`, tier 2
`state["tasks"]["open_items"][:max_actions - len(actions)]`, tier 3
`state["epics"]["items"][:max_actions - len(actions)]`.  `tracker` is the
content of `self.current_run_actions` when the method is entered. -/
def simpleDecisionLogic (state : Snapshot) (maxActions : Nat)
    (tracker : List ActionKey) : List Action :=
  let r1 := scanTier mkReview maxActions (state.prs.take maxActions) [] tracker
  if r1.2.2 then r1.1
  else
    let r2 := scanTier mkImplement maxActions
      (state.openTasks.take (maxActions - r1.1.length)) r1.1 r1.2.1
    if r2.2.2 then r2.1
    else
      let r3 := scanTier mkDecompose maxActions
        (state.epicsWithoutTasks.take (maxActions - r2.1.length)) r2.1 r2.2.1
      r3.1

/-- The linear scan `for x in collection: if x["repo"] == action["repo"] and
x["number"] == action["number"]` used by `_enrich_action`.  Reading a missing
`repo` key raises as soon as the first comparison runs; a missing `number`
key raises only when some item's repo matches, mirroring Python's
short-circuit `and`. -/
def findByRepoNumber (ra : RawAction) : List Item → Except Unit (Option Item)
  | [] => Except.ok none
  | it :: rest =>
    match ra.repo with
    | none => Except.error ()
    | some r =>
      if it.repo = r then
        match ra.number with
        | none => Except.error ()
        | some n =>
          if it.number = n then Except.ok (some it) else findByRepoNumber ra rest
      else findByRepoNumber ra rest

/-- `_enrich_action` (orchestrator.py lines 280-311): re-resolve an
oracle-proposed action against the snapshot, filling `title` (and `body` for
implement/decompose) from the found item; return `none` when the target is
absent or the type is unknown.  `Except.error` models an escaping KeyError
on a missing dict key. -/
def enrichAction (ra : RawAction) (s : Snapshot) : Except Unit (Option Action) :=
  match ra.type with
  | none => Except.error ()
  | some t =>
    if t = "review_pr" then
      match findByRepoNumber ra s.prs with
      | Except.error e => Except.error e
      | Except.ok none => Except.ok none
      | Except.ok (some it) =>
        Except.ok (some ⟨t, it.repo, it.number, it.title, "", ra.priority⟩)
    else if t = "implement_task" then
      match findByRepoNumber ra s.openTasks with
      | Except.error e => Except.error e
      | Except.ok none => Except.ok none
      | Except.ok (some it) =>
        Except.ok (some ⟨t, it.repo, it.number, it.title, it.body, ra.priority⟩)
    else if t = "decompose_epic" then
      match findByRepoNumber ra s.epicsWithoutTasks with
      | Except.error e => Except.error e
      | Except.ok none => Except.ok none
      | Except.ok (some it) =>
        Except.ok (some ⟨t, it.repo, it.number, it.title, it.body, ra.priority⟩)
    else if t = "monitor_task" then
      match findByRepoNumber ra s.processingTasks with
      | Except.error e => Except.error e
      | Except.ok none => Except.ok none
      | Except.ok (some it) =>
        Except.ok (some ⟨t, it.repo, it.number, it.title, "", ra.priority⟩)
    else Except.ok none

/-- The enrichment loop of `_decide_actions` (orchestrator.py lines 214-221):
`for action in actions[:K]: enriched = _enrich_action(...); if enriched and
_can_process_action(enriched): enriched_actions.append(enriched)`.  An
exception escaping the loop body carries the dedup-tracker state reached so
far (the `except` handler at line 223 then runs the fallback with exactly
that state). -/
def oracleLoop (s : Snapshot) :
    List RawAction → List Action → List ActionKey →
    Except (List ActionKey) (List Action × List ActionKey)
  | [], acc, tracker => Except.ok (acc, tracker)
  | ra :: rest, acc, tracker =>
    match enrichAction ra s with
    | Except.error _ => Except.error tracker
    | Except.ok none => oracleLoop s rest acc tracker
    | Except.ok (some a) =>
      let r := canProcessAction (actionKey a) tracker
      if r.1 then oracleLoop s rest (acc ++ [a]) r.2
      else oracleLoop s rest acc r.2

/-- Outcome of the Mistral consultation in `_decide_actions`:
`unavailable` is `self.ollama` being `None` (line 164), `exn` is any
exception raised by `generate`/`json.loads`/`decision.get`/the slice before
the first loop iteration, and `ok proposed` is a parsed `actions` list. -/
inductive OracleCall where
  | unavailable
  | exn
  | ok (proposed : List RawAction)
deriving DecidableEq

/-- `_decide_actions` (orchestrator.py lines 152-225) for one cycle.  The
dedup tracker is `[]` at entry because `run_continuous` clears
`self.current_run_actions` at the start of every cycle (line 410). -/
def decideActions (s : Snapshot) (maxActions : Nat) (call : OracleCall) :
    List Action :=
  match call with
  | OracleCall.unavailable => simpleDecisionLogic s maxActions []
  | OracleCall.exn => simpleDecisionLogic s maxActions []
  | OracleCall.ok proposed =>
    match oracleLoop s (proposed.take maxActions) [] [] with
    | Except.ok r => r.1
    | Except.error tracker => simpleDecisionLogic s maxActions tracker

/-- The display reference `f"#{epic['number']}"` of github_client.py
line 211. -/
def epicNumberRef (e : Item) : String := "#" ++ toString e.number

/-- `pat` is a leading segment of `l`. -/
def startsWithChars : List Char → List Char → Bool
  | [], _ => true
  | _ :: _, [] => false
  | a :: as, b :: bs => a = b && startsWithChars as bs

/-- `pat` occurs contiguously somewhere in `l`. -/
def hasSubstringChars (pat : List Char) : List Char → Bool
  | [] => startsWithChars pat []
  | l@(_ :: rest) => startsWithChars pat l || hasSubstringChars pat rest

/-- Substring containment, `epic_ref in text`. -/
def containsRef (ref text : String) : Bool :=
  hasSubstringChars ref.toList text.toList

/-- `epic_has_tasks` (github_client.py lines 208-223): an epic has tasks when
some task of the same repo mentions `#<number>` in its body or title.  The
method re-fetches the full task list, so the scan runs over the unfiltered
tasks. -/
def epicHasTasks (epic : Item) (tasks : List Item) : Bool :=
  tasks.any fun t =>
    decide (t.repo = epic.repo) &&
      (containsRef (epicNumberRef epic) (t.body) ||
       containsRef (epicNumberRef epic) (t.title))

/-- `_scan_github_state` (orchestrator.py lines 96-150) as a function of the
item lists returned by the GitHub client.  Only tasks are dropped by the
`ignore_old_tasks_before_number` floor (lines 113-114); PRs and epics are
passed through unfiltered. -/
def scanGithubState (prs allTasks epics : List Item) : Snapshot where
  prs := prs
  openTasks := allTasks.filter fun t =>
    decide (ignoreOldTasksBeforeNumber ≤ t.number) && !t.hasProcessingLabel
  processingTasks := allTasks.filter fun t =>
    decide (ignoreOldTasksBeforeNumber ≤ t.number) && t.hasProcessingLabel
  epicsWithoutTasks := epics.filter fun e => !(epicHasTasks e allTasks)

/-- Does an action's `(repo, number)` target occur in the given item list? -/
def resolvesIn (a : Action) (items : List Item) : Bool :=
  items.any fun it => decide (it.repo = a.repo) && decide (it.number = a.number)

/-- The property C8 asserts of returned actions: the action's target is
present in the snapshot collection that its type addresses. -/
def targetInSnapshot (a : Action) (s : Snapshot) : Bool :=
  if a.type = "review_pr" then resolvesIn a s.prs
  else if a.type = "implement_task" then resolvesIn a s.openTasks
  else if a.type = "decompose_epic" then resolvesIn a s.epicsWithoutTasks
  else if a.type = "monitor_task" then resolvesIn a s.processingTasks
  else false

end Dulien

namespace Dulien

/-! ### Timing model of the executor fan-in

`_execute_actions` (orchestrator.py lines 344-386) starts one thread per
action, then joins them sequentially, each join bounded by
`ORCHESTRATOR_CONFIG["action_timeout"]`.  We model wall-clock time with
`Nat`; worker `i`'s completion time is `completions[i]` (`none` = the worker
never finishes).  `thread.join(timeout=T)` entered at time `now` returns at
the completion time if the thread is already or soon done, and at
`now + T` otherwise. -/

/-- One `thread.join(timeout=timeout)` call entered at time `now` for a
worker completing at `c`. -/
def joinStep (timeout : Nat) (now : Nat) (c : Option Nat) : Nat :=
  match c with
  | some done => min (max now done) (now + timeout)
  | none => now + timeout

/-- Time at which the `for thread in threads: thread.join(timeout=timeout)`
loop (orchestrator.py lines 381-384) finishes, starting at time 0. -/
def joinBarrierFinish (timeout : Nat) (completions : List (Option Nat)) : Nat :=
  completions.foldl (joinStep timeout) 0

/-- Indices of the workers whose `result_list.append(result)` runs exactly at
time `v` (each worker appends to the shared `results` list the moment it
completes). -/
def completedAtExactly (v : Nat) (completions : List (Option Nat)) : List Nat :=
  (List.range completions.length).filter fun i =>
    decide (completions.getD i none = some v)

/-- Content of the shared `results` list at time `t`: the workers that have
completed by then, in completion order.  `_execute_actions` returns this very
list object at the barrier-finish time; a worker completing later appends to
the same object. -/
def resultsAt (t : Nat) (completions : List (Option Nat)) : List Nat :=
  (List.range (t + 1)).flatMap fun v => completedAtExactly v completions

end Dulien

namespace Dulien

/-! ### Model of the executor retry loop

`_run_claude_command` (claude_agent.py lines 113-209).  The outcome of each
`subprocess.run` attempt is given by `outcomes : Nat → AttemptOutcome`; the
function returns the result dict together with the trace of attempts and
`time.sleep(retry_delay)` calls it performed. -/

/-- Outcome of one `subprocess.run` attempt: exit code 0, a nonzero exit code
with `result.stderr or "Unknown error"` as message, `subprocess.TimeoutExpired`,
or any other exception. -/
inductive AttemptOutcome where
  | success (out : String)
  | failureRc (err : String)
  | timeoutExp
  | otherExn (msg : String)
deriving DecidableEq

/-- Observable events of the retry loop. -/
inductive ExecEvent where
  | attempt (i : Nat)
  | sleep (d : Nat)
deriving DecidableEq

/-- The result dict of `_run_claude_command`.  Python uses the key
`"attempt"` on success (line 168) and `"attempts"` on the failure paths; both
record the attempt count and are modelled by the single field `attempts`.
The `output` payload is kept only for the success path. -/
structure ActionResult where
  status : String
  error : Option String
  output : Option String
  attempts : Nat
deriving DecidableEq

/-- The f-string `f"Command timed out after {timeout} seconds"`
(claude_agent.py line 189). -/
def timeoutMsg (timeout : Nat) : String :=
  "Command timed out after " ++ toString timeout ++ " seconds"

/-- The `for attempt in range(self.retry_attempts)` loop body.  The first
`Nat` argument is how many loop iterations remain, the second the current
value of `attempt`; at the top-level call they are `retryA` and `0`. -/
def runAttempts (retryA retryD tmo : Nat) (outcomes : Nat → AttemptOutcome) :
    Nat → Nat → ActionResult × List ExecEvent
  | 0, _ => (⟨"failed", some "Max retry attempts reached", none, retryA⟩, [])
  | r + 1, i =>
    match outcomes i with
    | AttemptOutcome.success out =>
      (⟨"success", none, some out, i + 1⟩, [ExecEvent.attempt i])
    | AttemptOutcome.timeoutExp =>
      (⟨"failed", some (timeoutMsg tmo), none, i + 1⟩, [ExecEvent.attempt i])
    | AttemptOutcome.failureRc err =>
      if r = 0 then (⟨"failed", some err, none, retryA⟩, [ExecEvent.attempt i])
      else
        let res := runAttempts retryA retryD tmo outcomes r (i + 1)
        (res.1, ExecEvent.attempt i :: ExecEvent.sleep retryD :: res.2)
    | AttemptOutcome.otherExn msg =>
      if r = 0 then (⟨"failed", some msg, none, retryA⟩, [ExecEvent.attempt i])
      else
        let res := runAttempts retryA retryD tmo outcomes r (i + 1)
        (res.1, ExecEvent.attempt i :: ExecEvent.sleep retryD :: res.2)

/-- `_run_claude_command` with `retry_attempts = retryA`,
`retry_delay = retryD` and per-attempt timeout `tmo`. -/
def runClaudeCommand (retryA retryD tmo : Nat) (outcomes : Nat → AttemptOutcome) :
    ActionResult × List ExecEvent :=
  runAttempts retryA retryD tmo outcomes retryA 0

/-- Attempt outcomes that reach the retry branch (nonzero exit code or a
non-timeout exception). -/
def isTransient : AttemptOutcome → Bool
  | AttemptOutcome.failureRc _ => true
  | AttemptOutcome.otherExn _ => true
  | _ => false

/-- Is the event an attempt? -/
def isAttemptEv : ExecEvent → Bool
  | ExecEvent.attempt _ => true
  | _ => false

/-- Is the event a sleep? -/
def isSleepEv : ExecEvent → Bool
  | ExecEvent.sleep _ => true
  | _ => false

/-- Number of `subprocess.run` attempts in a trace. -/
def countAttempts (tr : List ExecEvent) : Nat := (tr.filter isAttemptEv).length

/-- Number of `time.sleep` calls in a trace. -/
def countSleeps (tr : List ExecEvent) : Nat := (tr.filter isSleepEv).length

end Dulien

namespace Dulien

/-! ### Concrete inputs used by counterexamples and witnesses -/

/-- An open PR numbered below the task floor (the spec's own example PR). -/
def prFix : Item := ⟨"webapp", 12, "Fix login", "", false⟩

/-- A snapshot holding exactly that one PR. -/
def snapOnePr : Snapshot := ⟨[prFix], [], [], []⟩

/-- A well-formed oracle proposal targeting `prFix`. -/
def goodRaw : RawAction := ⟨some "review_pr", some "webapp", some 12, 1⟩

/-- A malformed oracle proposal: the `repo` and `number` keys are missing, so
enriching it raises KeyError when the first PR is compared. -/
def badRaw : RawAction := ⟨some "review_pr", none, none, 1⟩

/-- An open task above the ignore floor. -/
def taskFiftyFive : Item := ⟨"webapp", 55, "Implement feature", "details", false⟩

/-- Two distinct open PRs in one snapshot. -/
def prA : Item := ⟨"webapp", 101, "First PR", "", false⟩

/-- Second of the two PRs. -/
def prB : Item := ⟨"webapp", 102, "Second PR", "", false⟩

/-- Snapshot with the two PRs, in snapshot order. -/
def snapTwoPrs : Snapshot := ⟨[prA, prB], [], [], []⟩

/-- A dedup tracker that already claims the review key of `prA`. -/
def trackerWithPrA : List ActionKey := [("review_pr", "webapp", 101)]

/-- Attempt outcomes: a transient failure, then a timeout. -/
def outcomesThenTimeout : Nat → AttemptOutcome := fun j =>
  if j = 0 then AttemptOutcome.failureRc "stderr" else AttemptOutcome.timeoutExp

/-- Attempt outcomes: every attempt fails transiently. -/
def outcomesAlwaysFail : Nat → AttemptOutcome :=
  fun _ => AttemptOutcome.failureRc "boom"

end Dulien

namespace Dulien

/-! Sanity examples for the decision model (spec section 8's worked example:
PR webapp#12, task #3 below the floor, task #55, task-less epic #5, K = 3). -/

example :
    simpleDecisionLogic
      (scanGithubState
        [⟨"webapp", 12, "PR twelve", "", false⟩]
        [⟨"webapp", 3, "old", "", false⟩, ⟨"webapp", 55, "task", "b", false⟩]
        [⟨"webapp", 5, "epic", "e", false⟩])
      maxParallelActions [] =
    [⟨"review_pr", "webapp", 12, "PR twelve", "", 1⟩,
     ⟨"implement_task", "webapp", 55, "task", "b", 2⟩,
     ⟨"decompose_epic", "webapp", 5, "epic", "e", 3⟩] := by decide

example :
    decideActions ⟨[⟨"webapp", 12, "t", "", false⟩], [], [], []⟩ 3
      (OracleCall.ok [⟨some "review_pr", some "webapp", some 12, 1⟩,
                      ⟨some "review_pr", some "webapp", some 12, 1⟩]) =
    [⟨"review_pr", "webapp", 12, "t", "", 1⟩] := by decide

end Dulien

namespace Dulien

/-! ### Lemmas about the deterministic fallback -/

theorem scanTier_extra (mk : Item → Action) (m : Nat) (items : List Item) :
    ∀ (acc : List Action) (t : List ActionKey),
    ∃ ex, (scanTier mk m items acc t).1 = acc ++ ex ∧
      ex.Sublist (items.map mk) := by
  induction items with
  | nil => intro acc t; exact ⟨[], by simp [scanTier], List.nil_sublist _⟩
  | cons item rest ih =>
    intro acc t
    by_cases h : actionKey (mk item) ∈ t
    · obtain ⟨ex, h1, h2⟩ := ih acc t
      refine ⟨ex, ?_, h2.trans (List.sublist_cons_self _ _)⟩
      simpa [scanTier, canProcessAction, h] using h1
    · by_cases hm : m ≤ acc.length + 1
      · refine ⟨[mk item], ?_, List.Sublist.cons₂ _ (List.nil_sublist _)⟩
        simp [scanTier, canProcessAction, h, hm]
      · obtain ⟨ex, h1, h2⟩ := ih (acc ++ [mk item]) (actionKey (mk item) :: t)
        refine ⟨mk item :: ex, ?_, List.Sublist.cons₂ _ h2⟩
        rw [show acc ++ mk item :: ex = (acc ++ [mk item]) ++ ex by simp]
        simpa [scanTier, canProcessAction, h, hm] using h1

theorem scanTier_invariant (mk : Item → Action) (m : Nat) (items : List Item) :
    ∀ (acc : List Action) (t : List ActionKey),
    (∀ a ∈ acc, actionKey a ∈ t) → (acc.map actionKey).Nodup →
    ((scanTier mk m items acc t).1.map actionKey).Nodup ∧
      (∀ a ∈ (scanTier mk m items acc t).1,
        actionKey a ∈ (scanTier mk m items acc t).2.1) ∧
      ∀ key ∈ t, key ∈ (scanTier mk m items acc t).2.1 := by
  induction items with
  | nil =>
    intro acc t h1 h2
    exact ⟨by simpa [scanTier] using h2, by simpa [scanTier] using h1,
      by simp [scanTier]⟩
  | cons item rest ih =>
    intro acc t h1 h2
    by_cases h : actionKey (mk item) ∈ t
    · have := ih acc t h1 h2
      simpa [scanTier, canProcessAction, h] using this
    · have hkey : actionKey (mk item) ∉ acc.map actionKey := by
        intro hmem
        obtain ⟨a, ha, hak⟩ := List.mem_map.mp hmem
        exact h (hak ▸ h1 a ha)
      have h1' : ∀ a ∈ acc ++ [mk item],
          actionKey a ∈ actionKey (mk item) :: t := by
        intro a ha
        rcases List.mem_append.mp ha with ha | ha
        · exact List.mem_cons_of_mem _ (h1 a ha)
        · simp at ha; subst ha; exact List.mem_cons_self _ _
      have h2' : ((acc ++ [mk item]).map actionKey).Nodup := by
        rw [List.map_append]
        refine List.Nodup.append h2 (List.nodup_singleton _) ?_
        intro x hx hx'
        simp at hx'
        exact hkey (by simpa [hx'] using hx)
      by_cases hm : m ≤ acc.length + 1
      · refine ⟨?_, ?_, ?_⟩
        · simpa [scanTier, canProcessAction, h, hm] using h2'
        · simpa [scanTier, canProcessAction, h, hm] using h1'
        · intro key hk
          simp [scanTier, canProcessAction, h, hm]
          exact Or.inr hk
      · have := ih (acc ++ [mk item]) (actionKey (mk item) :: t) h1' h2'
        refine ⟨?_, ?_, ?_⟩
        · simpa [scanTier, canProcessAction, h, hm] using this.1
        · simpa [scanTier, canProcessAction, h, hm] using this.2.1
        · intro key hk
          have := this.2.2 key (List.mem_cons_of_mem _ hk)
          simpa [scanTier, canProcessAction, h, hm] using this

end Dulien

namespace Dulien

theorem scanTier_step (mk : Item → Action) (k : Nat) (items : List Item)
    (acc : List Action) (t : List ActionKey)
    (hlen : acc.length ≤ k)
    (hN : (acc.map actionKey).Nodup)
    (hM : ∀ a ∈ acc, actionKey a ∈ t) :
    ∃ ex, (scanTier mk k (items.take (k - acc.length)) acc t).1 = acc ++ ex ∧
      ex.Sublist (items.map mk) ∧
      (scanTier mk k (items.take (k - acc.length)) acc t).1.length ≤ k ∧
      ((scanTier mk k (items.take (k - acc.length)) acc t).1.map actionKey).Nodup ∧
      (∀ a ∈ (scanTier mk k (items.take (k - acc.length)) acc t).1,
        actionKey a ∈ (scanTier mk k (items.take (k - acc.length)) acc t).2.1) ∧
      ∀ key ∈ t, key ∈ (scanTier mk k (items.take (k - acc.length)) acc t).2.1 := by
  obtain ⟨ex, he, hs⟩ := scanTier_extra mk k (items.take (k - acc.length)) acc t
  obtain ⟨hN', hM', hT'⟩ :=
    scanTier_invariant mk k (items.take (k - acc.length)) acc t hM hN
  refine ⟨ex, he, hs.trans (List.Sublist.map _ (List.take_sublist _ _)),
    ?_, hN', hM', hT'⟩
  rw [he]
  have h1 := hs.length_le
  simp [List.length_take] at h1 ⊢
  omega

end Dulien

namespace Dulien

theorem simpleDecisionLogic_spec (s : Snapshot) (k : Nat) (t0 : List ActionKey) :
    ∃ A B C, simpleDecisionLogic s k t0 = A ++ B ++ C ∧
      A.Sublist (s.prs.map mkReview) ∧
      B.Sublist (s.openTasks.map mkImplement) ∧
      C.Sublist (s.epicsWithoutTasks.map mkDecompose) ∧
      (simpleDecisionLogic s k t0).length ≤ k ∧
      ((simpleDecisionLogic s k t0).map actionKey).Nodup := by
  obtain ⟨ex1, he1, hsub1, hlen1, hN1, hM1, _⟩ :=
    scanTier_step mkReview k s.prs [] t0 (by simp) (by simp) (by simp)
  simp only [List.length_nil, Nat.sub_zero] at he1 hsub1 hlen1 hN1 hM1
  simp only [List.nil_append] at he1
  obtain ⟨ex2, he2, hsub2, hlen2, hN2, hM2, _⟩ :=
    scanTier_step mkImplement k s.openTasks
      (scanTier mkReview k (s.prs.take k) [] t0).1
      (scanTier mkReview k (s.prs.take k) [] t0).2.1 hlen1 hN1 hM1
  obtain ⟨ex3, he3, hsub3, hlen3, hN3, hM3, _⟩ :=
    scanTier_step mkDecompose k s.epicsWithoutTasks
      (scanTier mkImplement k
        (s.openTasks.take (k - (scanTier mkReview k (s.prs.take k) [] t0).1.length))
        (scanTier mkReview k (s.prs.take k) [] t0).1
        (scanTier mkReview k (s.prs.take k) [] t0).2.1).1
      (scanTier mkImplement k
        (s.openTasks.take (k - (scanTier mkReview k (s.prs.take k) [] t0).1.length))
        (scanTier mkReview k (s.prs.take k) [] t0).1
        (scanTier mkReview k (s.prs.take k) [] t0).2.1).2.1 hlen2 hN2 hM2
  simp only [simpleDecisionLogic]
  split
  case isTrue hb1 =>
    exact ⟨ex1, [], [], by simp [he1], hsub1, List.nil_sublist _,
      List.nil_sublist _, hlen1, hN1⟩
  case isFalse hb1 =>
    split
    case isTrue hb2 =>
      refine ⟨ex1, ex2, [], ?_, hsub1, hsub2, List.nil_sublist _, hlen2, hN2⟩
      rw [he2, he1]; simp
    case isFalse hb2 =>
      refine ⟨ex1, ex2, ex3, ?_, hsub1, hsub2, hsub3, hlen3, hN3⟩
      rw [he3, he2, he1]

end Dulien

namespace Dulien

/-! ### Lemmas about the oracle path -/

theorem findByRepoNumber_ok_mem (ra : RawAction) :
    ∀ (items : List Item) (it : Item),
    findByRepoNumber ra items = Except.ok (some it) → it ∈ items := by
  intro items
  induction items with
  | nil => intro it h; simp [findByRepoNumber] at h
  | cons x rest ih =>
    intro it h
    cases hrep : ra.repo with
    | none => simp [findByRepoNumber, hrep] at h
    | some r =>
      by_cases hx : x.repo = r
      · cases hnum : ra.number with
        | none => simp [findByRepoNumber, hrep, hx, hnum] at h
        | some n =>
          by_cases hn : x.number = n
          · simp [findByRepoNumber, hrep, hx, hnum, hn] at h
            simp [h]
          · simp [findByRepoNumber, hrep, hx, hnum, hn] at h
            exact List.mem_cons_of_mem _ (ih it h)
      · simp [findByRepoNumber, hrep, hx] at h
        exact List.mem_cons_of_mem _ (ih it h)

theorem enrichAction_ok_target (ra : RawAction) (s : Snapshot) (a : Action) :
    enrichAction ra s = Except.ok (some a) → targetInSnapshot a s = true := by
  intro h
  cases hty : ra.type with
  | none => simp [enrichAction, hty] at h
  | some t =>
    by_cases h1 : t = "review_pr"
    · cases hf : findByRepoNumber ra s.prs with
      | error e => simp [enrichAction, hty, h1, hf] at h
      | ok o =>
        cases o with
        | none => simp [enrichAction, hty, h1, hf] at h
        | some it =>
          simp [enrichAction, hty, h1, hf] at h
          have hit := findByRepoNumber_ok_mem ra s.prs it hf
          subst h
          simp [targetInSnapshot, h1, resolvesIn, List.any_eq_true]
          exact ⟨it, hit, rfl, rfl⟩
    · by_cases h2 : t = "implement_task"
      · cases hf : findByRepoNumber ra s.openTasks with
        | error e => simp [enrichAction, hty, h1, h2, hf] at h
        | ok o =>
          cases o with
          | none => simp [enrichAction, hty, h1, h2, hf] at h
          | some it =>
            simp [enrichAction, hty, h1, h2, hf] at h
            have hit := findByRepoNumber_ok_mem ra s.openTasks it hf
            subst h
            simp [targetInSnapshot, h1, h2, resolvesIn, List.any_eq_true]
            exact ⟨it, hit, rfl, rfl⟩
      · by_cases h3 : t = "decompose_epic"
        · cases hf : findByRepoNumber ra s.epicsWithoutTasks with
          | error e => simp [enrichAction, hty, h1, h2, h3, hf] at h
          | ok o =>
            cases o with
            | none => simp [enrichAction, hty, h1, h2, h3, hf] at h
            | some it =>
              simp [enrichAction, hty, h1, h2, h3, hf] at h
              have hit := findByRepoNumber_ok_mem ra s.epicsWithoutTasks it hf
              subst h
              simp [targetInSnapshot, h1, h2, h3, resolvesIn, List.any_eq_true]
              exact ⟨it, hit, rfl, rfl⟩
        · by_cases h4 : t = "monitor_task"
          · cases hf : findByRepoNumber ra s.processingTasks with
            | error e => simp [enrichAction, hty, h1, h2, h3, h4, hf] at h
            | ok o =>
              cases o with
              | none => simp [enrichAction, hty, h1, h2, h3, h4, hf] at h
              | some it =>
                simp [enrichAction, hty, h1, h2, h3, h4, hf] at h
                have hit := findByRepoNumber_ok_mem ra s.processingTasks it hf
                subst h
                simp [targetInSnapshot, h1, h2, h3, h4, resolvesIn,
                  List.any_eq_true]
                exact ⟨it, hit, rfl, rfl⟩
          · simp [enrichAction, hty, h1, h2, h3, h4] at h

theorem oracleLoop_invariant (s : Snapshot) (ras : List RawAction) :
    ∀ (acc : List Action) (t : List ActionKey) (l : List Action)
      (tr : List ActionKey),
    (∀ a ∈ acc, actionKey a ∈ t) → (acc.map actionKey).Nodup →
    oracleLoop s ras acc t = Except.ok (l, tr) →
    (l.map actionKey).Nodup ∧
      ∀ a ∈ l, a ∈ acc ∨ ∃ ra, enrichAction ra s = Except.ok (some a) := by
  induction ras with
  | nil =>
    intro acc t l tr h1 h2 hok
    simp [oracleLoop] at hok
    obtain ⟨hl, -⟩ := hok
    subst hl
    exact ⟨h2, fun a ha => Or.inl ha⟩
  | cons ra rest ih =>
    intro acc t l tr h1 h2 hok
    cases henr : enrichAction ra s with
    | error e => simp [oracleLoop, henr] at hok
    | ok o =>
      cases o with
      | none =>
        simp only [oracleLoop, henr] at hok
        exact ih acc t l tr h1 h2 hok
      | some a =>
        by_cases hkey : actionKey a ∈ t
        · simp only [oracleLoop, henr] at hok
          rw [canProcessAction, if_pos hkey] at hok
          simp at hok
          exact ih acc t l tr h1 h2 hok
        · simp only [oracleLoop, henr] at hok
          rw [canProcessAction, if_neg hkey] at hok
          simp at hok
          have hka : actionKey a ∉ acc.map actionKey := by
            intro hmem
            obtain ⟨b, hb, hbk⟩ := List.mem_map.mp hmem
            exact hkey (hbk ▸ h1 b hb)
          have h1' : ∀ b ∈ acc ++ [a], actionKey b ∈ actionKey a :: t := by
            intro b hb
            rcases List.mem_append.mp hb with hb | hb
            · exact List.mem_cons_of_mem _ (h1 b hb)
            · simp at hb; subst hb; exact List.mem_cons_self _ _
          have h2' : ((acc ++ [a]).map actionKey).Nodup := by
            rw [List.map_append]
            refine List.Nodup.append h2 (List.nodup_singleton _) ?_
            intro x hx hx'
            simp at hx'
            exact hka (by simpa [hx'] using hx)
          obtain ⟨hn, hm⟩ := ih (acc ++ [a]) (actionKey a :: t) l tr h1' h2' hok
          refine ⟨hn, ?_⟩
          intro b hb
          rcases hm b hb with hbm | hbm
          · rcases List.mem_append.mp hbm with hbm | hbm
            · exact Or.inl hbm
            · simp at hbm; subst hbm; exact Or.inr ⟨ra, henr⟩
          · exact Or.inr hbm

end Dulien

namespace Dulien

/-! ### Helper results shared by the claims about the Decision Engine -/

theorem simpleDecisionLogic_target (s : Snapshot) (k : Nat)
    (t0 : List ActionKey) :
    ∀ a ∈ simpleDecisionLogic s k t0, targetInSnapshot a s = true := by
  obtain ⟨A, B, C, hd, hA, hB, hC, -, -⟩ := simpleDecisionLogic_spec s k t0
  intro a ha
  rw [hd] at ha
  rcases List.mem_append.mp ha with hab | hc
  · rcases List.mem_append.mp hab with ha' | hb
    · obtain ⟨pr, hpr, rfl⟩ := List.mem_map.mp (hA.subset ha')
      simp [targetInSnapshot, mkReview, resolvesIn, List.any_eq_true]
      exact ⟨pr, hpr, rfl, rfl⟩
    · obtain ⟨tk, htk, rfl⟩ := List.mem_map.mp (hB.subset hb)
      simp [targetInSnapshot, mkImplement, resolvesIn, List.any_eq_true]
      exact ⟨tk, htk, rfl, rfl⟩
  · obtain ⟨ep, hep, rfl⟩ := List.mem_map.mp (hC.subset hc)
    simp [targetInSnapshot, mkDecompose, resolvesIn, List.any_eq_true]
    exact ⟨ep, hep, rfl, rfl⟩

theorem decideActions_target (s : Snapshot) (k : Nat) (call : OracleCall) :
    ∀ a ∈ decideActions s k call, targetInSnapshot a s = true := by
  intro a ha
  cases call with
  | unavailable => exact simpleDecisionLogic_target s k [] a ha
  | exn => exact simpleDecisionLogic_target s k [] a ha
  | ok proposed =>
    cases hres : oracleLoop s (proposed.take k) [] [] with
    | ok r =>
      have hd : decideActions s k (OracleCall.ok proposed) = r.1 := by
        simp [decideActions, hres]
      rw [hd] at ha
      obtain ⟨-, hm⟩ := oracleLoop_invariant s (proposed.take k) [] [] r.1 r.2
        (by simp) (by simp) (by rw [hres])
      rcases hm a ha with h | ⟨ra, hra⟩
      · simp at h
      · exact enrichAction_ok_target ra s a hra
    | error tr =>
      have hd : decideActions s k (OracleCall.ok proposed) =
          simpleDecisionLogic s k tr := by
        simp [decideActions, hres]
      rw [hd] at ha
      exact simpleDecisionLogic_target s k tr a ha

theorem decideActions_nodup (s : Snapshot) (k : Nat) (call : OracleCall) :
    ((decideActions s k call).map actionKey).Nodup := by
  cases call with
  | unavailable => exact (simpleDecisionLogic_spec s k []).choose_spec.choose_spec.choose_spec.2.2.2.2.2
  | exn => exact (simpleDecisionLogic_spec s k []).choose_spec.choose_spec.choose_spec.2.2.2.2.2
  | ok proposed =>
    cases hres : oracleLoop s (proposed.take k) [] [] with
    | ok r =>
      have hd : decideActions s k (OracleCall.ok proposed) = r.1 := by
        simp [decideActions, hres]
      rw [hd]
      exact (oracleLoop_invariant s (proposed.take k) [] [] r.1 r.2
        (by simp) (by simp) (by rw [hres])).1
    | error tr =>
      have hd : decideActions s k (OracleCall.ok proposed) =
          simpleDecisionLogic s k tr := by
        simp [decideActions, hres]
      rw [hd]
      exact (simpleDecisionLogic_spec s k tr).choose_spec.choose_spec.choose_spec.2.2.2.2.2

end Dulien

namespace Dulien

/-- C1: for every snapshot and every concurrency budget `k` (and any content
of the per-cycle dedup tracker at entry), the deterministic fallback
`_simple_decision_logic` returns at most `k` actions, no two of which share
an ActionKey, and the list decomposes as review actions, then implement
actions, then decompose actions, each tier a subsequence (in snapshot
order) of the corresponding snapshot collection. -/
theorem c1_fallback_shape (s : Snapshot) (k : Nat) (t0 : List ActionKey) :
    (simpleDecisionLogic s k t0).length ≤ k ∧
    ((simpleDecisionLogic s k t0).map actionKey).Nodup ∧
    ∃ A B C, simpleDecisionLogic s k t0 = A ++ B ++ C ∧
      A.Sublist (s.prs.map mkReview) ∧ (∀ a ∈ A, a.type = "review_pr") ∧
      B.Sublist (s.openTasks.map mkImplement) ∧
      (∀ a ∈ B, a.type = "implement_task") ∧
      C.Sublist (s.epicsWithoutTasks.map mkDecompose) ∧
      ∀ a ∈ C, a.type = "decompose_epic" := by
  obtain ⟨A, B, C, hd, hA, hB, hC, hlen, hnd⟩ := simpleDecisionLogic_spec s k t0
  refine ⟨hlen, hnd, A, B, C, hd, hA, ?_, hB, ?_, hC, ?_⟩
  · intro a ha
    obtain ⟨pr, -, rfl⟩ := List.mem_map.mp (hA.subset ha)
    rfl
  · intro a ha
    obtain ⟨tk, -, rfl⟩ := List.mem_map.mp (hB.subset ha)
    rfl
  · intro a ha
    obtain ⟨ep, -, rfl⟩ := List.mem_map.mp (hC.subset ha)
    rfl

/-- Closed instance of `c1_fallback_shape` at a concrete snapshot. -/
theorem c1_fallback_shape_witness :
    (simpleDecisionLogic snapTwoPrs 1 []).length ≤ 1 ∧
    ((simpleDecisionLogic snapTwoPrs 1 []).map actionKey).Nodup :=
  ⟨(c1_fallback_shape snapTwoPrs 1 []).1, (c1_fallback_shape snapTwoPrs 1 []).2.1⟩

/-- C2: whatever the oracle call produced (unavailable, raised, or any
proposed action list — including one proposing the same action twice), the
action list returned for the cycle by `_decide_actions` contains no two
actions with the same ActionKey: `_can_process_action` drops a candidate
whose key is already registered and registers the key of every admitted
candidate. -/
theorem c2_no_duplicate_keys (s : Snapshot) (k : Nat) (call : OracleCall) :
    ((decideActions s k call).map actionKey).Nodup :=
  decideActions_nodup s k call

/-- Closed instance of `c2_no_duplicate_keys` with the oracle proposing the
same action twice. -/
theorem c2_no_duplicate_keys_witness :
    ((decideActions snapOnePr 3 (OracleCall.ok [goodRaw, goodRaw])).map
      actionKey).Nodup :=
  c2_no_duplicate_keys snapOnePr 3 (OracleCall.ok [goodRaw, goodRaw])

/-- C3 counterexample: the oracle responds, its first proposed action is
admitted (registering its dedup key), and its second proposed action is
malformed, so a KeyError escapes the enrichment loop.  The `except` handler
then runs the fallback with the already-dirty tracker: the cycle returns
`[]`, whereas the fallback on the identical snapshot with a fresh tracker
returns the review action.  The claim "returns exactly the same action list
that the fallback would return … with the same, fresh dedup-tracker state"
is therefore false. -/
theorem c3_counterexample :
    decideActions snapOnePr 3 (OracleCall.ok [goodRaw, badRaw]) = [] ∧
    simpleDecisionLogic snapOnePr 3 [] = [mkReview prFix] ∧
    decideActions snapOnePr 3 (OracleCall.ok [goodRaw, badRaw]) ≠
      simpleDecisionLogic snapOnePr 3 [] := by decide

/-- C3 amended: any failure of the oracle call makes `_decide_actions`
return, without retrying the oracle, exactly the fallback's output computed
with the dedup-tracker state at the moment of failure: the fresh (empty)
tracker when the oracle is unavailable or the failure precedes the first
enrichment (so also for every top-level malformed response), and the
accumulated tracker when the failure happens part-way through the proposed
list. -/
theorem c3_fallback_on_failure (s : Snapshot) (k : Nat) :
    decideActions s k OracleCall.unavailable = simpleDecisionLogic s k [] ∧
    decideActions s k OracleCall.exn = simpleDecisionLogic s k [] ∧
    ∀ (proposed : List RawAction) (t : List ActionKey),
      oracleLoop s (proposed.take k) [] [] = Except.error t →
      decideActions s k (OracleCall.ok proposed) = simpleDecisionLogic s k t := by
  refine ⟨rfl, rfl, ?_⟩
  intro proposed t h
  simp [decideActions, h]

/-- Closed instance of `c3_fallback_on_failure`: a malformed first proposal
fails before any key is registered, so the output equals the fresh-tracker
fallback. -/
theorem c3_fallback_on_failure_witness :
    decideActions snapOnePr 3 (OracleCall.ok [badRaw]) =
      simpleDecisionLogic snapOnePr 3 [] :=
  (c3_fallback_on_failure snapOnePr 3).2.2 [badRaw] [] (by rfl)

/-- C8: every action returned by `_decide_actions` — by either strategy —
has a target that resolves in the snapshot collection addressed by its type;
an oracle proposal whose target is absent is dropped by `_enrich_action`
before dispatch, so no returned (hence no executed) action can point outside
the snapshot. -/
theorem c8_no_invented_targets (s : Snapshot) (k : Nat) (call : OracleCall)
    (a : Action) (h : a ∈ decideActions s k call) :
    targetInSnapshot a s = true :=
  decideActions_target s k call a h

/-- Closed instance of `c8_no_invented_targets`. -/
theorem c8_no_invented_targets_witness :
    targetInSnapshot (mkReview prFix) snapOnePr = true :=
  c8_no_invented_targets snapOnePr 3 (OracleCall.ok [goodRaw]) (mkReview prFix)
    (by decide)

/-- C10: each tier of the fallback slices the tier's item list to the
remaining budget before the dedup check, so a dedup-dropped candidate
consumes one of the examined slots: here, with budget 1 and the first PR's
key already claimed, the fallback returns no action at all even though the
second PR is eligible and its key is unclaimed. -/
theorem c10_budget_slot_consumed :
    (simpleDecisionLogic snapTwoPrs 1 trackerWithPrA).length < 1 ∧
    prB ∈ snapTwoPrs.prs ∧
    actionKey (mkReview prB) ∉ trackerWithPrA := by decide

end Dulien

namespace Dulien

/-- C4 counterexample: the Snapshot Builder's number floor is applied only to
tasks.  A PR numbered 12 — below the floor of 50 — is kept in the snapshot
and does give rise to a review action, so the claim "every item (PR, task,
or epic) whose number is below the configured floor is excluded" is false. -/
theorem c4_counterexample :
    prFix.number < ignoreOldTasksBeforeNumber ∧
    prFix ∈ (scanGithubState [prFix] [] []).prs ∧
    decideActions (scanGithubState [prFix] [] []) maxParallelActions
      OracleCall.unavailable = [mkReview prFix] := by decide

/-- C4 amended: only tasks below the configured floor are excluded from the
snapshot — they appear in neither the open nor the processing collection, so
no implement or monitor action returned by the Decision Engine can target a
number below the floor.  PRs and epics are not number-filtered. -/
theorem c4_task_floor (prs allTasks epics : List Item) :
    (∀ t ∈ (scanGithubState prs allTasks epics).openTasks,
      ignoreOldTasksBeforeNumber ≤ t.number) ∧
    (∀ t ∈ (scanGithubState prs allTasks epics).processingTasks,
      ignoreOldTasksBeforeNumber ≤ t.number) ∧
    ∀ (k : Nat) (call : OracleCall) (a : Action),
      a ∈ decideActions (scanGithubState prs allTasks epics) k call →
      a.type = "implement_task" ∨ a.type = "monitor_task" →
      ignoreOldTasksBeforeNumber ≤ a.number := by
  have hopen : ∀ t ∈ (scanGithubState prs allTasks epics).openTasks,
      ignoreOldTasksBeforeNumber ≤ t.number := by
    intro t ht
    simp [scanGithubState, List.mem_filter] at ht
    exact ht.2.1
  have hproc : ∀ t ∈ (scanGithubState prs allTasks epics).processingTasks,
      ignoreOldTasksBeforeNumber ≤ t.number := by
    intro t ht
    simp [scanGithubState, List.mem_filter] at ht
    exact ht.2.1
  refine ⟨hopen, hproc, ?_⟩
  intro k call a ha hty
  have htarget := decideActions_target (scanGithubState prs allTasks epics)
    k call a ha
  rcases hty with hty | hty
  · rw [targetInSnapshot, hty] at htarget
    simp [resolvesIn, List.any_eq_true] at htarget
    obtain ⟨it, hit, -, hnum⟩ := htarget
    exact hnum ▸ hopen it hit
  · rw [targetInSnapshot, hty] at htarget
    simp [resolvesIn, List.any_eq_true] at htarget
    obtain ⟨it, hit, -, hnum⟩ := htarget
    exact hnum ▸ hproc it hit

/-- Closed instance of `c4_task_floor`: an above-floor task survives the
filter and its implement action has an above-floor number. -/
theorem c4_task_floor_witness :
    ignoreOldTasksBeforeNumber ≤ taskFiftyFive.number ∧
    ignoreOldTasksBeforeNumber ≤ (mkImplement taskFiftyFive).number :=
  ⟨(c4_task_floor [] [taskFiftyFive] []).1 taskFiftyFive (by decide),
   (c4_task_floor [] [taskFiftyFive] []).2.2 3 OracleCall.unavailable
     (mkImplement taskFiftyFive) (by decide) (Or.inl rfl)⟩

end Dulien

namespace Dulien

/-! ### Lemmas about the join barrier and the shared results list -/

theorem joinStep_le (timeout now : Nat) (c : Option Nat) :
    joinStep timeout now c ≤ now + timeout := by
  cases c with
  | none => simp [joinStep]
  | some d => exact Nat.min_le_right _ _

theorem foldl_joinStep_le (timeout : Nat) (cs : List (Option Nat)) :
    ∀ now : Nat, List.foldl (joinStep timeout) now cs ≤
      now + cs.length * timeout := by
  induction cs with
  | nil => intro now; simp
  | cons c rest ih =>
    intro now
    have h1 := ih (joinStep timeout now c)
    have h2 := joinStep_le timeout now c
    simp only [List.foldl_cons, List.length_cons]
    calc List.foldl (joinStep timeout) (joinStep timeout now c) rest
        ≤ joinStep timeout now c + rest.length * timeout := h1
      _ ≤ (now + timeout) + rest.length * timeout := by omega
      _ = now + (rest.length + 1) * timeout := by ring

theorem foldl_joinStep_all_some (timeout : Nat) (ts : List Nat) :
    ∀ now : Nat, List.foldl (joinStep timeout) now (ts.map some) ≤
      max now (ts.foldr max 0) := by
  induction ts with
  | nil => intro now; simp
  | cons t rest ih =>
    intro now
    have h1 := ih (joinStep timeout now (some t))
    have h2 : joinStep timeout now (some t) ≤ max now t :=
      Nat.min_le_left _ _
    simp only [List.map_cons, List.foldl_cons, List.foldr_cons]
    refine le_trans h1 ?_
    have h3 : max (joinStep timeout now (some t)) (rest.foldr max 0) ≤
        max (max now t) (rest.foldr max 0) := by omega
    refine le_trans h3 ?_
    rw [Nat.max_assoc]

theorem resultsAt_split (cs : List (Option Nat)) (t u : Nat) (h : t ≤ u) :
    ∃ late, resultsAt u cs = resultsAt t cs ++ late ∧
      ∀ i ∈ late, ∃ v, t < v ∧ v ≤ u ∧ cs.getD i none = some v := by
  refine ⟨(List.range (u - t)).flatMap
    (fun j => completedAtExactly (t + 1 + j) cs), ?_, ?_⟩
  · have hsplit : u + 1 = (t + 1) + (u - t) := by omega
    rw [resultsAt, hsplit, List.range_add, List.flatMap_append,
      List.flatMap_map]
    rfl
  · intro i hi
    rw [List.mem_flatMap] at hi
    obtain ⟨j, hj, hij⟩ := hi
    rw [List.mem_range] at hj
    simp [completedAtExactly, List.mem_filter] at hij
    refine ⟨t + 1 + j, by omega, by omega, ?_⟩
    simpa [List.getD_eq_getElem?_getD] using hij.2

end Dulien

namespace Dulien

/-- C5 counterexample: with per-action timeout 5 and two workers that never
complete, the sequential `thread.join(timeout=...)` loop finishes only at
time 10 = 2·5 — the fan-in wait is the sum of the timeouts, not one timeout,
so "completes within … one timeout T" is false. -/
theorem c5_counterexample :
    joinBarrierFinish 5 [none, none] = 2 * 5 ∧
    ¬ joinBarrierFinish 5 [none, none] ≤ 5 := by decide

/-- C5 amended: the fan-in of `_execute_actions` finishes within N·T for N
dispatched actions of per-action timeout T (the joins are sequential, so
hung workers can make the wait reach that sum), and when every worker
completes the barrier finishes by the slowest single completion time. -/
theorem c5_join_bound (timeout : Nat) (completions : List (Option Nat)) :
    joinBarrierFinish timeout completions ≤ completions.length * timeout ∧
    ∀ ts : List Nat, completions = ts.map some →
      joinBarrierFinish timeout completions ≤ ts.foldr max 0 := by
  constructor
  · have := foldl_joinStep_le timeout completions 0
    simpa [joinBarrierFinish] using this
  · intro ts hts
    subst hts
    have := foldl_joinStep_all_some timeout ts 0
    simpa [joinBarrierFinish] using this

/-- Closed instance of `c5_join_bound` with two completing workers. -/
theorem c5_join_bound_witness :
    joinBarrierFinish 5 [some 3, some 7] ≤ 2 * 5 ∧
    joinBarrierFinish 5 [some 3, some 7] ≤ 7 := by
  have h := c5_join_bound 5 [some 3, some 7]
  exact ⟨by simpa using h.1, by simpa using h.2 [3, 7] rfl⟩

/-- C9 counterexample: one worker completes at time 8, after the join
barrier gave up at time 5.  The shared `results` list the caller received at
barrier time is empty, but the late `result_list.append` mutates that same
list to `[0]`: the late completion does alter the finalized result list, so
"discarded as a no-op" is false. -/
theorem c9_counterexample :
    joinBarrierFinish 5 [some 8] = 5 ∧
    resultsAt (joinBarrierFinish 5 [some 8]) [some 8] = [] ∧
    resultsAt 8 [some 8] = [0] ∧
    resultsAt (joinBarrierFinish 5 [some 8]) [some 8] ≠
      resultsAt 8 [some 8] := by decide

/-- C9 amended: a late completion is not discarded — the worker appends its
result to the very list `_execute_actions` already returned.  At any time
`u` past the barrier finish, the shared results list equals the finalized
list extended (in place) by exactly the workers that completed after the
barrier and by `u`. -/
theorem c9_late_append (timeout : Nat) (completions : List (Option Nat))
    (u : Nat) (h : joinBarrierFinish timeout completions ≤ u) :
    ∃ late, resultsAt u completions =
        resultsAt (joinBarrierFinish timeout completions) completions ++ late ∧
      ∀ i ∈ late, ∃ v, joinBarrierFinish timeout completions < v ∧ v ≤ u ∧
        completions.getD i none = some v :=
  resultsAt_split completions (joinBarrierFinish timeout completions) u h

/-- Closed instance of `c9_late_append` at the counterexample's input. -/
theorem c9_late_append_witness :
    ∃ late, resultsAt 8 [some 8] =
        resultsAt (joinBarrierFinish 5 [some 8]) [some 8] ++ late ∧
      ∀ i ∈ late, ∃ v, joinBarrierFinish 5 [some 8] < v ∧ v ≤ 8 ∧
        [some 8].getD i none = some v :=
  c9_late_append 5 [some 8] 8 (by decide)

end Dulien

namespace Dulien

/-! ### Lemmas about the executor retry loop -/

theorem runAttempts_attempt_ge (A D T : Nat) (f : Nat → AttemptOutcome) :
    ∀ (r i j : Nat),
    ExecEvent.attempt j ∈ (runAttempts A D T f r i).2 → i ≤ j := by
  intro r
  induction r with
  | zero => intro i j h; simp [runAttempts] at h
  | succ r ih =>
    intro i j h
    cases hfi : f i with
    | success out => simp [runAttempts, hfi] at h; omega
    | timeoutExp => simp [runAttempts, hfi] at h; omega
    | failureRc err =>
      by_cases hr : r = 0
      · simp [runAttempts, hfi, hr] at h; omega
      · simp [runAttempts, hfi, hr] at h
        rcases h with h | h
        · omega
        · have := ih (i + 1) j h; omega
    | otherExn msg =>
      by_cases hr : r = 0
      · simp [runAttempts, hfi, hr] at h; omega
      · simp [runAttempts, hfi, hr] at h
        rcases h with h | h
        · omega
        · have := ih (i + 1) j h; omega

theorem runAttempts_timeout (A D T : Nat) (f : Nat → AttemptOutcome) :
    ∀ (r i j : Nat), f j = AttemptOutcome.timeoutExp →
    ExecEvent.attempt j ∈ (runAttempts A D T f r i).2 →
    (runAttempts A D T f r i).1 =
      ⟨"failed", some (timeoutMsg T), none, j + 1⟩ ∧
    ∀ j2, ExecEvent.attempt j2 ∈ (runAttempts A D T f r i).2 → j2 ≤ j := by
  intro r
  induction r with
  | zero => intro i j hf h; simp [runAttempts] at h
  | succ r ih =>
    intro i j hf h
    cases hfi : f i with
    | success out =>
      simp [runAttempts, hfi] at h
      subst h
      rw [hfi] at hf
      simp at hf
    | timeoutExp =>
      simp [runAttempts, hfi] at h
      subst h
      refine ⟨by simp [runAttempts, hfi], ?_⟩
      intro j2 h2
      simp [runAttempts, hfi] at h2
      omega
    | failureRc err =>
      by_cases hr : r = 0
      · simp [runAttempts, hfi, hr] at h
        subst h
        rw [hfi] at hf
        simp at hf
      · have hmem : ExecEvent.attempt j ∈ (runAttempts A D T f r (i + 1)).2 := by
          simp [runAttempts, hfi, hr] at h
          rcases h with h | h
          · exfalso; subst h; rw [hfi] at hf; simp at hf
          · exact h
        obtain ⟨hres, hbound⟩ := ih (i + 1) j hf hmem
        refine ⟨by simpa [runAttempts, hfi, hr] using hres, ?_⟩
        intro j2 h2
        simp [runAttempts, hfi, hr] at h2
        rcases h2 with h2 | h2
        · have := runAttempts_attempt_ge A D T f r (i + 1) j hmem
          omega
        · exact hbound j2 h2
    | otherExn msg =>
      by_cases hr : r = 0
      · simp [runAttempts, hfi, hr] at h
        subst h
        rw [hfi] at hf
        simp at hf
      · have hmem : ExecEvent.attempt j ∈ (runAttempts A D T f r (i + 1)).2 := by
          simp [runAttempts, hfi, hr] at h
          rcases h with h | h
          · exfalso; subst h; rw [hfi] at hf; simp at hf
          · exact h
        obtain ⟨hres, hbound⟩ := ih (i + 1) j hf hmem
        refine ⟨by simpa [runAttempts, hfi, hr] using hres, ?_⟩
        intro j2 h2
        simp [runAttempts, hfi, hr] at h2
        rcases h2 with h2 | h2
        · have := runAttempts_attempt_ge A D T f r (i + 1) j hmem
          omega
        · exact hbound j2 h2

theorem runAttempts_count (A D T : Nat) (f : Nat → AttemptOutcome) :
    ∀ (r i : Nat), i + r = A →
    (runAttempts A D T f r i).1.attempts =
      i + countAttempts (runAttempts A D T f r i).2 := by
  intro r
  induction r with
  | zero => intro i hi; simp [runAttempts, countAttempts]; omega
  | succ r ih =>
    intro i hi
    cases hfi : f i with
    | success out => simp [runAttempts, hfi, countAttempts, isAttemptEv]
    | timeoutExp => simp [runAttempts, hfi, countAttempts, isAttemptEv]
    | failureRc err =>
      by_cases hr : r = 0
      · simp [runAttempts, hfi, hr, countAttempts, isAttemptEv]; omega
      · have := ih (i + 1) (by omega)
        simp [runAttempts, hfi, hr, countAttempts, isAttemptEv, isSleepEv]
          at this ⊢
        omega
    | otherExn msg =>
      by_cases hr : r = 0
      · simp [runAttempts, hfi, hr, countAttempts, isAttemptEv]; omega
      · have := ih (i + 1) (by omega)
        simp [runAttempts, hfi, hr, countAttempts, isAttemptEv, isSleepEv]
          at this ⊢
        omega

theorem runAttempts_transient (A D T : Nat) (f : Nat → AttemptOutcome)
    (htr : ∀ j, isTransient (f j) = true) :
    ∀ (r i : Nat),
    (runAttempts A D T f r i).1.status = "failed" ∧
    countAttempts (runAttempts A D T f r i).2 = r ∧
    countSleeps (runAttempts A D T f r i).2 = r - 1 ∧
    ∀ d, ExecEvent.sleep d ∈ (runAttempts A D T f r i).2 → d = D := by
  intro r
  induction r with
  | zero =>
    intro i
    refine ⟨rfl, ?_, ?_, ?_⟩
    · simp [runAttempts, countAttempts]
    · simp [runAttempts, countSleeps]
    · intro d hd; simp [runAttempts] at hd
  | succ r ih =>
    intro i
    cases hfi : f i with
    | success out =>
      exfalso
      have := htr i
      rw [hfi] at this
      simp [isTransient] at this
    | timeoutExp =>
      exfalso
      have := htr i
      rw [hfi] at this
      simp [isTransient] at this
    | failureRc err =>
      by_cases hr : r = 0
      · subst hr
        refine ⟨by simp [runAttempts, hfi], ?_, ?_, ?_⟩
        · simp [runAttempts, hfi, countAttempts, isAttemptEv]
        · simp [runAttempts, hfi, countSleeps, isSleepEv]
        · intro d hd; simp [runAttempts, hfi] at hd
      · obtain ⟨h1, h2, h3, h4⟩ := ih (i + 1)
        refine ⟨by simpa [runAttempts, hfi, hr] using h1, ?_, ?_, ?_⟩
        · simp [runAttempts, hfi, hr, countAttempts, isAttemptEv, isSleepEv]
            at h2 ⊢
          omega
        · simp [runAttempts, hfi, hr, countSleeps, isAttemptEv, isSleepEv]
            at h3 ⊢
          omega
        · intro d hd
          simp [runAttempts, hfi, hr] at hd
          rcases hd with hd | hd
          · exact hd
          · exact h4 d hd
    | otherExn msg =>
      by_cases hr : r = 0
      · subst hr
        refine ⟨by simp [runAttempts, hfi], ?_, ?_, ?_⟩
        · simp [runAttempts, hfi, countAttempts, isAttemptEv]
        · simp [runAttempts, hfi, countSleeps, isSleepEv]
        · intro d hd; simp [runAttempts, hfi] at hd
      · obtain ⟨h1, h2, h3, h4⟩ := ih (i + 1)
        refine ⟨by simpa [runAttempts, hfi, hr] using h1, ?_, ?_, ?_⟩
        · simp [runAttempts, hfi, hr, countAttempts, isAttemptEv, isSleepEv]
            at h2 ⊢
          omega
        · simp [runAttempts, hfi, hr, countSleeps, isAttemptEv, isSleepEv]
            at h3 ⊢
          omega
        · intro d hd
          simp [runAttempts, hfi, hr] at hd
          rcases hd with hd | hd
          · exact hd
          · exact h4 d hd

end Dulien

namespace Dulien

/-- C6: if the attempt numbered `i` is actually executed and its
`subprocess.run` raises `TimeoutExpired`, then `_run_claude_command` returns
immediately: the single result is a failed ActionResult whose error string
is `"Command timed out after {timeout} seconds"` and whose attempt count is
`i + 1`, and no attempt after `i` is ever made. -/
theorem c6_timeout_terminal (retryA retryD tmo : Nat)
    (outcomes : Nat → AttemptOutcome) (i : Nat)
    (hout : outcomes i = AttemptOutcome.timeoutExp)
    (hmem : ExecEvent.attempt i ∈ (runClaudeCommand retryA retryD tmo outcomes).2) :
    (runClaudeCommand retryA retryD tmo outcomes).1 =
      ⟨"failed", some (timeoutMsg tmo), none, i + 1⟩ ∧
    ∀ j, ExecEvent.attempt j ∈ (runClaudeCommand retryA retryD tmo outcomes).2 →
      j ≤ i :=
  runAttempts_timeout retryA retryD tmo outcomes retryA 0 i hout hmem

/-- Closed instance of `c6_timeout_terminal`: with `retry_attempts = 2`, a
transient first attempt and a timed-out second attempt. -/
theorem c6_timeout_terminal_witness :
    (runClaudeCommand 2 30 600 outcomesThenTimeout).1 =
      ⟨"failed", some (timeoutMsg 600), none, 2⟩ ∧
    ∀ j, ExecEvent.attempt j ∈ (runClaudeCommand 2 30 600 outcomesThenTimeout).2 →
      j ≤ 1 :=
  c6_timeout_terminal 2 30 600 outcomesThenTimeout 1 (by decide) (by decide)

/-- C7: the attempt count recorded in the returned ActionResult always
equals the number of `subprocess.run` attempts actually made; and when every
attempt fails transiently, the loop makes exactly `retry_attempts` attempts
separated by exactly `retry_attempts - 1` sleeps of `retry_delay` seconds
each, and returns a failed ActionResult. -/
theorem c7_retry_accounting (retryA retryD tmo : Nat)
    (outcomes : Nat → AttemptOutcome) :
    (runClaudeCommand retryA retryD tmo outcomes).1.attempts =
      countAttempts (runClaudeCommand retryA retryD tmo outcomes).2 ∧
    ((∀ j, isTransient (outcomes j) = true) →
      (runClaudeCommand retryA retryD tmo outcomes).1.status = "failed" ∧
      countAttempts (runClaudeCommand retryA retryD tmo outcomes).2 = retryA ∧
      countSleeps (runClaudeCommand retryA retryD tmo outcomes).2 = retryA - 1 ∧
      ∀ d, ExecEvent.sleep d ∈ (runClaudeCommand retryA retryD tmo outcomes).2 →
        d = retryD) := by
  constructor
  · have := runAttempts_count retryA retryD tmo outcomes retryA 0 (by omega)
    simpa [runClaudeCommand] using this
  · intro htr
    exact runAttempts_transient retryA retryD tmo outcomes htr retryA 0

/-- Closed instance of `c7_retry_accounting` with the configured
`retry_attempts = 2`, `retry_delay = 30` and always-failing attempts. -/
theorem c7_retry_accounting_witness :
    (runClaudeCommand 2 30 600 outcomesAlwaysFail).1.attempts =
      countAttempts (runClaudeCommand 2 30 600 outcomesAlwaysFail).2 ∧
    ((runClaudeCommand 2 30 600 outcomesAlwaysFail).1.status = "failed" ∧
      countAttempts (runClaudeCommand 2 30 600 outcomesAlwaysFail).2 = 2 ∧
      countSleeps (runClaudeCommand 2 30 600 outcomesAlwaysFail).2 = 2 - 1 ∧
      ∀ d, ExecEvent.sleep d ∈ (runClaudeCommand 2 30 600 outcomesAlwaysFail).2 →
        d = 30) :=
  ⟨(c7_retry_accounting 2 30 600 outcomesAlwaysFail).1,
   (c7_retry_accounting 2 30 600 outcomesAlwaysFail).2 (fun _ => rfl)⟩

end Dulien
